import Mathlib

/-!
Verification of the pedurma reconstruction pipeline
(`app/services/pedurma_reconstruction/reconstruction.py`).

Texts are shallowly embedded as `List Char`; Python's regex operations are
embedded as the concrete scanning functions they amount to on this pipeline's
patterns; Python exceptions (IndexError on `s[-1]` / `l[i]`, AttributeError on
`None.group`) are embedded as `Option`/`Except` failures.
-/

set_option maxRecDepth 4000

namespace Pedurma

open List

/-- Characters treated as whitespace (Python `\s`, ASCII part). -/
def isWs (c : Char) : Bool :=
  c = ' ' || c = '\t' || c = '\n' || c = '\r' || c = '\x0b' || c = '\x0c'

/-- Tibetan digit ༠..༩ (U+0F20..U+0F29). -/
def isTibDigit (c : Char) : Bool :=
  0xF20 ≤ c.toNat && c.toNat ≤ 0xF29

/-- Decimal digits of this pipeline's alphabet: Python `\d` restricted to the
Arabic and Tibetan digits occurring in the OCR texts. -/
def isDigitU (c : Char) : Bool :=
  c.isDigit || isTibDigit c

/-- Map a Tibetan digit glyph to the Arabic digit character
(the `tib_num` table of `translate_tib_number`). -/
def tibToArab (c : Char) : Char := Char.ofNat (c.toNat - 0xF20 + 0x30)

/-- The `circle_num` dictionary of `is_circle_number`: the 21 circled-numeral
keys ⓪ and ①..⑳; every other character is a dictionary miss (`None`,
modelled as `[]`). -/
def circleVal : Char → List Char
  | '⓪' => ['0']
  | '①' => ['1']
  | '②' => ['2']
  | '③' => ['3']
  | '④' => ['4']
  | '⑤' => ['5']
  | '⑥' => ['6']
  | '⑦' => ['7']
  | '⑧' => ['8']
  | '⑨' => ['9']
  | '⑩' => ['1', '0']
  | '⑪' => ['1', '1']
  | '⑫' => ['1', '2']
  | '⑬' => ['1', '3']
  | '⑭' => ['1', '4']
  | '⑮' => ['1', '5']
  | '⑯' => ['1', '6']
  | '⑰' => ['1', '7']
  | '⑱' => ['1', '8']
  | '⑲' => ['1', '9']
  | '⑳' => ['2', '0']
  | _ => []

/-- The regex class `[①-⓪]` of `is_circle_number`: the codepoint range
U+2460..U+24EA. -/
def isCircleRange (c : Char) : Bool :=
  0x2460 ≤ c.toNat && c.toNat ≤ 0x24EA

/-- `is_circle_number`: `re.search("[①-⓪]", m)` takes the first character in
the range; the dictionary lookup yields its value (a miss, like the initial
`value = ""`, is falsy and modelled as `[]`). -/
def is_circle_number (m : List Char) : List Char :=
  match m.find? isCircleRange with
  | none => []
  | some c => circleVal c

/-- Helper for the rejection pattern `\d+\S+(\d+)` of `translate_tib_number`:
after a digit, is there a non-empty run of non-whitespace characters followed
by another digit? -/
def digitAfterNonWs : List Char → Bool
  | c1 :: c2 :: rest =>
    if isWs c1 then false
    else if isDigitU c2 then true
    else digitAfterNonWs (c2 :: rest)
  | _ => false

/-- `re.search(r"\d+\S+(\d+)", m)` as a scanner: the pattern matches iff some
digit is followed, after one or more non-whitespace characters, by a digit. -/
def hasRejectPattern : List Char → Bool
  | [] => false
  | c :: rest => (isDigitU c && digitAfterNonWs rest) || hasRejectPattern rest

/-- `translate_tib_number`: empty result if the two-numbers pattern matches;
otherwise every digit character (`re.finditer(r"\d")`) is kept, Tibetan digits
translated through the `tib_num` table and other digits copied as-is. -/
def translate_tib_number (m : List Char) : List Char :=
  if hasRejectPattern m then []
  else (m.filter isDigitU).map (fun c => if isTibDigit c then tibToArab c else c)

/-- `get_value`: circled-numeral lookup first, Tibetan/Arabic digit
translation second, empty string otherwise (Python truthiness of the
intermediate strings is emptiness). -/
def get_value (m : List Char) : List Char :=
  if is_circle_number m ≠ [] then is_circle_number m
  else if translate_tib_number m ≠ [] then translate_tib_number m
  else []

/-- The glyphs ⓪..⑳ in value order. -/
def circleGlyphs : List Char :=
  ['⓪', '①', '②', '③', '④', '⑤', '⑥', '⑦', '⑧', '⑨', '⑩',
   '⑪', '⑫', '⑬', '⑭', '⑮', '⑯', '⑰', '⑱', '⑲', '⑳']

/-- The decimal strings "0".."20". -/
def circleValues : List (List Char) :=
  [['0'], ['1'], ['2'], ['3'], ['4'], ['5'], ['6'], ['7'], ['8'], ['9'],
   ['1', '0'], ['1', '1'], ['1', '2'], ['1', '3'], ['1', '4'], ['1', '5'],
   ['1', '6'], ['1', '7'], ['1', '8'], ['1', '9'], ['2', '0']]

/-- The glyphs ༠..༩ in value order. -/
def tibGlyphs : List Char :=
  ['༠', '༡', '༢', '༣', '༤', '༥', '༦', '༧', '༨', '༩']

/-- The decimal strings "0".."9". -/
def tibValues : List (List Char) :=
  [['0'], ['1'], ['2'], ['3'], ['4'], ['5'], ['6'], ['7'], ['8'], ['9']]

end Pedurma

namespace Pedurma

open List

/-- Claim C6: resolving the rendered form of a value recovers the value —
`get_value` maps every circled numeral ⓪..⑳ to "0".."20" and every single
Tibetan digit ༠..༩ to "0".."9". -/
theorem get_value_roundtrip :
    circleGlyphs.map (fun c => get_value [c]) = circleValues ∧
    tibGlyphs.map (fun c => get_value [c]) = tibValues := by
  constructor <;> decide

theorem tib_isDigitU {c : Char} (h : isTibDigit c = true) : isDigitU c = true := by
  simp [isDigitU, h]

theorem tib_not_ws {c : Char} (h : isTibDigit c = true) : isWs c = false := by
  have h1 : 0xF20 ≤ c.toNat := by
    simp only [isTibDigit, Bool.and_eq_true, decide_eq_true_eq] at h
    exact h.1
  have hne : ∀ d : Char, d.toNat < 0xF20 → c ≠ d := by
    intro d hd he
    subst he
    omega
  simp only [isWs, Bool.or_eq_false_iff, decide_eq_false_iff_not]
  exact ⟨⟨⟨⟨⟨hne ' ' (by decide), hne '\t' (by decide)⟩, hne '\n' (by decide)⟩,
    hne '\r' (by decide)⟩, hne '\x0b' (by decide)⟩, hne '\x0c' (by decide)⟩

theorem tib_map_translate {l : List Char} (h : l.all isTibDigit = true) :
    (l.filter isDigitU).map (fun c => if isTibDigit c then tibToArab c else c) =
      l.map tibToArab := by
  induction l with
  | nil => simp
  | cons a t ih =>
    simp only [List.all_cons, Bool.and_eq_true] at h
    rw [List.filter_cons_of_pos (tib_isDigitU h.1), List.map_cons, List.map_cons,
      if_pos h.1, ih h.2]

/-- Claim C7, counterexample: the single contiguous Tibetan-digit run ༡༢༣ is
rejected by `translate_tib_number` (result "") instead of translating to the
concatenation "123" — the rejection regex `\d+\S+\d+` also matches a pure
digit run of length ≥ 3, because `\S` matches digits. -/
theorem translate_tib_number_triple_digit_run :
    translate_tib_number ['༡', '༢', '༣'] ≠ ['1', '2', '3'] ∧
    translate_tib_number ['༡', '༢', '༣'] = [] := by
  decide

/-- Claim C7 (amended): a run of one or two Tibetan digits translates to the
concatenation of the glyph values, but any run of three or more digits — and
in general any text matching digits, then one or more non-whitespace
characters, then digits — is rejected with an empty result, since `\S`
matches digits. -/
theorem translate_tib_number_run_behavior :
    (∀ l : List Char, l.all isTibDigit = true → l ≠ [] → l.length ≤ 2 →
      translate_tib_number l = l.map tibToArab) ∧
    (∀ l : List Char, l.all isTibDigit = true → 3 ≤ l.length →
      translate_tib_number l = []) := by
  constructor
  · intro l hall hne hlen
    have hrej : hasRejectPattern l = false := by
      match l with
      | [] => rfl
      | [a] => simp [hasRejectPattern, digitAfterNonWs]
      | [a, b] => simp [hasRejectPattern, digitAfterNonWs]
      | a :: b :: c :: t => simp at hlen
    rw [translate_tib_number, hrej, if_neg (by simp), tib_map_translate hall]
  · intro l hall hlen
    match l with
    | [] => simp at hlen
    | [a] => simp at hlen
    | [a, b] => simp at hlen
    | a :: b :: c :: t =>
      simp only [List.all_cons, Bool.and_eq_true] at hall
      have hrej : hasRejectPattern (a :: b :: c :: t) = true := by
        rw [hasRejectPattern]
        have : digitAfterNonWs (b :: c :: t) = true := by
          rw [digitAfterNonWs, if_neg (by rw [tib_not_ws hall.2.1]; simp),
            if_pos (tib_isDigitU hall.2.2.1)]
        rw [this, tib_isDigitU hall.1]
        simp
      rw [translate_tib_number, hrej, if_pos rfl]

/-- Claim C7, witness: the two-digit run ༡༢ translates to "12" and the
three-digit run ༡༢༣ is rejected. -/
theorem translate_tib_number_run_behavior_witness :
    translate_tib_number ['༡', '༢'] = ['1', '2'] ∧
    translate_tib_number ['༡', '༢', '༣'] = [] :=
  ⟨by
    have := translate_tib_number_run_behavior.1 ['༡', '༢'] (by decide)
      (by decide) (by decide)
    simpa using this,
   translate_tib_number_run_behavior.2 ['༡', '༢', '༣'] (by decide) (by decide)⟩

/-- Index of the first occurrence of `pat` in `s` (Python `str.find`). -/
def firstIdx (pat : List Char) : List Char → Option Nat
  | [] => if pat = [] then some 0 else none
  | c :: cs =>
    if pat.isPrefixOf (c :: cs) then some 0
    else (firstIdx pat cs).map (· + 1)

/-- Python `s.replace(pat, r, 1)`: replace the first occurrence only. -/
def replaceFirst (s pat r : List Char) : List Char :=
  match firstIdx pat s with
  | none => s
  | some i => s.take i ++ r ++ s.drop (i + pat.length)

/-- Does `pat` occur in `s` (a `re.search` for a literal pattern)? -/
def containsSub (s pat : List Char) : Bool := (firstIdx pat s).isSome

theorem isPrefixOf_decomp {pat s : List Char} (h : pat.isPrefixOf s = true) :
    s = pat ++ s.drop pat.length := by
  rcases List.isPrefixOf_iff_prefix.1 h with ⟨t, ht⟩
  subst ht
  rw [List.drop_left]

theorem firstIdx_decomp {pat : List Char} :
    ∀ {s : List Char} {i : Nat}, firstIdx pat s = some i →
      s = s.take i ++ pat ++ s.drop (i + pat.length) := by
  intro s
  induction s with
  | nil =>
    intro i h
    rw [firstIdx] at h
    split at h
    · rename_i hp
      cases h
      subst hp
      simp
    · cases h
  | cons c cs ih =>
    intro i h
    rw [firstIdx] at h
    split at h
    · rename_i hp
      cases h
      simpa using isPrefixOf_decomp hp
    · rcases Option.map_eq_some'.1 h with ⟨j, hj, hji⟩
      subst hji
      have hcs := ih hj
      have harith : j + 1 + pat.length = (j + pat.length) + 1 := by omega
      rw [List.take_succ_cons, harith, List.drop_succ_cons, List.cons_append,
        List.cons_append, ← hcs]

theorem replaceFirst_self (s pat : List Char) : replaceFirst s pat pat = s := by
  rw [replaceFirst]
  cases h : firstIdx pat s with
  | none => rfl
  | some i => exact (firstIdx_decomp h).symm

theorem containsSub_mem {s pat : List Char} (h : containsSub s pat = true) :
    ∀ c ∈ pat, c ∈ s := by
  intro c hc
  rcases Option.isSome_iff_exists.1 h with ⟨i, hi⟩
  rw [firstIdx_decomp hi]
  simp [hc]

/-- One pass of `re.sub(lit, "", s)` for a non-empty literal `p :: ps`:
remove every non-overlapping occurrence, scanning left to right.  The `Nat`
fuel (instantiated with the length of the string) makes the recursion
structural so the definition evaluates. -/
def eraseGo (p : Char) (ps : List Char) : Nat → List Char → List Char
  | _, [] => []
  | 0, c :: cs => c :: cs
  | n + 1, c :: cs =>
    if (p :: ps).isPrefixOf (c :: cs) then eraseGo p ps n (cs.drop ps.length)
    else c :: eraseGo p ps n cs

/-- `re.sub(pat, "", s)` for a literal pattern. -/
def eraseAllSub (pat s : List Char) : List Char :=
  match pat with
  | [] => s
  | p :: ps => eraseGo p ps s.length s

theorem eraseGo_sublist (p : Char) (ps : List Char) :
    ∀ (n : Nat) (s : List Char), eraseGo p ps n s <+ s := by
  intro n
  induction n with
  | zero => intro s; cases s <;> simp [eraseGo]
  | succ n ih =>
    intro s
    cases s with
    | nil => simp [eraseGo]
    | cons c cs =>
      rw [eraseGo]
      split
      · exact ((ih _).trans (List.drop_sublist _ _)).cons c
      · exact (ih cs).cons₂ c

theorem eraseAllSub_sublist (pat s : List Char) : eraseAllSub pat s <+ s := by
  rw [eraseAllSub.eq_def]
  cases pat with
  | nil => exact List.Sublist.refl s
  | cons p ps => exact eraseGo_sublist p ps s.length s

/-- Latin letters, the class `[a-zA-Z]`. -/
def isLatin (c : Char) : Bool :=
  ('a' ≤ c && c ≤ 'z') || ('A' ≤ c && c ≤ 'Z')

/-- A pattern of `rm_marker`: either a character class (whose removal is the
deletion of every character of the class) or a multi-character literal. -/
inductive RmPat where
  | cls (p : Char → Bool)
  | lit (l : List Char)

/-- `re.search(pattern, diff)` for an `rm_marker` pattern. -/
def searchPat : RmPat → List Char → Bool
  | .cls p, t => t.any p
  | .lit l, t => containsSub t l

/-- `re.sub(pattern, "", result)` for an `rm_marker` pattern. -/
def subPat : RmPat → List Char → List Char
  | .cls p, t => t.filter (fun c => !(p c))
  | .lit l, t => eraseAllSub l t

/-- The 15 patterns of `rm_marker`, in source order: `©`, `®`, `“`, `•`,
`[༠-༩]`, `[a-zA-Z]`, `)`, `(`, ` +`, `@`, `་+?`, `"། །"`, `\d`, `།`,
`"༄༅"`.  Each single-character-class substitution is extensionally the
removal of all characters of the class (` +` deletes every space run,
the lazy `་+?` every single tseg, `\d` every digit). -/
def rmPats : List RmPat :=
  [.cls (· = '©'), .cls (· = '®'), .cls (· = '“'), .cls (· = '•'),
   .cls isTibDigit, .cls isLatin, .cls (· = ')'), .cls (· = '('),
   .cls (· = ' '), .cls (· = '@'), .cls (· = '་'), .lit ['།', ' ', '།'],
   .cls isDigitU, .cls (· = '།'), .lit ['༄', '༅']]

/-- The loop of `rm_marker`: each pattern's presence is tested on the
original `orig` but the substitution is applied to the accumulating
result. -/
def rmLoop : List RmPat → List Char → List Char → List Char
  | [], _, acc => acc
  | p :: ps, orig, acc =>
    rmLoop ps orig (if searchPat p orig then subPat p acc else acc)

/-- `rm_marker`: strip known marker-noise characters. -/
def rm_marker (t : List Char) : List Char := rmLoop rmPats t t

theorem subPat_sublist (p : RmPat) (t : List Char) : subPat p t <+ t := by
  cases p with
  | cls q => exact List.filter_sublist t
  | lit l => exact eraseAllSub_sublist l t

theorem rmLoop_sublist (ps : List RmPat) (orig : List Char) :
    ∀ acc, rmLoop ps orig acc <+ acc := by
  induction ps with
  | nil => intro acc; exact List.Sublist.refl acc
  | cons p ps ih =>
    intro acc
    rw [rmLoop]
    split
    · exact (ih _).trans (subPat_sublist p acc)
    · exact ih acc

theorem cls_mem_removed {f : Char → Bool} :
    ∀ (ps : List RmPat) (orig acc : List Char), RmPat.cls f ∈ ps →
      orig.any f = true → ∀ c, f c = true → c ∉ rmLoop ps orig acc := by
  intro ps
  induction ps with
  | nil => intro orig acc h; cases h
  | cons q ps ih =>
    intro orig acc hmem hany c hc
    rw [rmLoop]
    rcases List.mem_cons.1 hmem with heq | htail
    · subst heq
      rw [searchPat, hany, if_pos rfl]
      intro hin
      have := (rmLoop_sublist ps orig _).subset hin
      simp only [subPat, List.mem_filter, Bool.not_eq_true'] at this
      exact absurd hc (by simp [this.2])
    · exact ih orig _ htail hany c hc

theorem cls_not_mem_rm_marker {f : Char → Bool} (t : List Char)
    (hmem : RmPat.cls f ∈ rmPats) : ∀ c, f c = true → c ∉ rm_marker t := by
  intro c hc
  cases hany : t.any f with
  | true => exact cls_mem_removed rmPats t t hmem hany c hc
  | false =>
    intro hin
    have : c ∈ t := (rmLoop_sublist rmPats t t).subset hin
    rw [List.any_eq_false] at hany
    exact hany c this hc

theorem cls_any_rm_marker_false {f : Char → Bool} (t : List Char)
    (hmem : RmPat.cls f ∈ rmPats) : (rm_marker t).any f = false := by
  rw [List.any_eq_false]
  intro c hcm hf
  exact cls_not_mem_rm_marker t hmem c hf hcm

theorem rmLoop_id_of_no_search {ps : List RmPat} {orig : List Char}
    (h : ∀ p ∈ ps, searchPat p orig = false) :
    ∀ acc, rmLoop ps orig acc = acc := by
  induction ps with
  | nil => intro acc; rfl
  | cons p ps ih =>
    intro acc
    rw [rmLoop, h p (List.mem_cons_self p ps), if_neg (by simp)]
    exact ih (fun q hq => h q (List.mem_cons_of_mem p hq)) acc

/-- Claim C9, counterexample: `rm_marker` is not idempotent — stripping the
Latin letter from "༄a༅" creates the adjacent pair ༄༅, which the first pass
does not remove (its `re.search` looks at the original text) but a second
pass does. -/
theorem rm_marker_not_idempotent :
    rm_marker (rm_marker ['༄', 'a', '༅']) ≠ rm_marker ['༄', 'a', '༅'] ∧
    rm_marker ['༄', 'a', '༅'] = ['༄', '༅'] ∧
    rm_marker ['༄', '༅'] = [] := by
  decide

/-- Claim C9 (amended): `rm_marker` is idempotent on every input whose
stripped form contains no occurrence of the two-character literal ༄༅ — the
only pattern whose occurrences deletion can create, since every
single-character pattern leaves no character of its class behind and `"། །"`
needs a space, which never survives a pass. -/
theorem rm_marker_idempotent :
    ∀ t : List Char, containsSub (rm_marker t) ['༄', '༅'] = false →
      rm_marker (rm_marker t) = rm_marker t := by
  intro t hyigo
  have hall : ∀ p ∈ rmPats, searchPat p (rm_marker t) = false := by
    intro p hp
    simp only [rmPats, List.mem_cons, List.not_mem_nil, or_false] at hp
    rcases hp with h | h | h | h | h | h | h | h | h | h | h | h | h | h | h <;>
      subst h
    case _ => exact cls_any_rm_marker_false t (by simp [rmPats])
    case _ => exact cls_any_rm_marker_false t (by simp [rmPats])
    case _ => exact cls_any_rm_marker_false t (by simp [rmPats])
    case _ => exact cls_any_rm_marker_false t (by simp [rmPats])
    case _ => exact cls_any_rm_marker_false t (by simp [rmPats])
    case _ => exact cls_any_rm_marker_false t (by simp [rmPats])
    case _ => exact cls_any_rm_marker_false t (by simp [rmPats])
    case _ => exact cls_any_rm_marker_false t (by simp [rmPats])
    case _ => exact cls_any_rm_marker_false t (by simp [rmPats])
    case _ => exact cls_any_rm_marker_false t (by simp [rmPats])
    case _ => exact cls_any_rm_marker_false t (by simp [rmPats])
    case _ =>
      show containsSub (rm_marker t) ['།', ' ', '།'] = false
      cases hcs : containsSub (rm_marker t) ['།', ' ', '།'] with
      | false => rfl
      | true =>
        have hsp : ' ' ∈ rm_marker t := containsSub_mem hcs ' ' (by decide)
        have hmemsp : RmPat.cls (fun c => decide (c = ' ')) ∈ rmPats := by
          simp [rmPats]
        exact absurd hsp (cls_not_mem_rm_marker t hmemsp ' ' (by decide))
    case _ => exact cls_any_rm_marker_false t (by simp [rmPats])
    case _ => exact cls_any_rm_marker_false t (by simp [rmPats])
    case _ => exact hyigo
  exact rmLoop_id_of_no_search hall (rm_marker t)

/-- Claim C9, witness: idempotence at the concrete input "མ།x". -/
theorem rm_marker_idempotent_witness :
    rm_marker (rm_marker ['མ', '།', 'x']) = rm_marker ['མ', '།', 'x'] :=
  rm_marker_idempotent ['མ', '།', 'x'] (by decide)

/-- The class of `.` in Python regexes: any character except a newline. -/
def okDot (c : Char) : Bool := c ≠ '\n'

/-- The class of `\S`: any non-whitespace character. -/
def okNonWs (c : Char) : Bool := !(isWs c)

/-- Body-character predicate of a lazy token match: an `ok` character that is
not the closing `>`. -/
def tagBody (ok : Char → Bool) (x : Char) : Bool := ok x && !(x == '>')

/-- Try to match a lazy angle-bracket token regex at the head of `s`.
`pre` is the literal after `<` (`[]` for `<.+?>`, `['p']` for `<p\S+?>`,
`['r']` for `<r.+?>`) and `ok` the class of the body characters (`.` or
`\S`).  The lazy `+?` takes the shortest non-empty body closed by `>`:
one `ok` character, then further `ok` characters up to the first `>`. -/
def tryTag (pre : List Char) (ok : Char → Bool) (s : List Char) :
    Option (List Char × List Char) :=
  if ('<' :: pre).isPrefixOf s then
    match s.drop (pre.length + 1) with
    | [] => none
    | c :: rest =>
      if ok c then
        match rest.drop (rest.takeWhile (tagBody ok)).length with
        | [] => none
        | d :: rem =>
          if d = '>' then
            some (('<' :: pre) ++ (c :: rest.takeWhile (tagBody ok)) ++ ['>'], rem)
          else none
      else none
  else none

theorem tryTag_decomp {pre : List Char} {ok : Char → Bool} {s t rem : List Char}
    (h : tryTag pre ok s = some (t, rem)) :
    s = t ++ rem ∧ rem.length + 2 ≤ s.length := by
  rw [tryTag] at h
  split at h
  case isFalse => simp at h
  case isTrue hpre =>
    have hs : s = ('<' :: pre) ++ s.drop (pre.length + 1) := by
      simpa using isPrefixOf_decomp hpre
    cases hdrop : s.drop (pre.length + 1) with
    | nil => rw [hdrop] at h; simp at h
    | cons c rest =>
      rw [hdrop] at h
      dsimp only at h
      split at h
      case isFalse => simp at h
      case isTrue hok =>
        cases hdrop2 : rest.drop (rest.takeWhile (tagBody ok)).length with
        | nil => rw [hdrop2] at h; simp at h
        | cons d rem2 =>
          rw [hdrop2] at h
          dsimp only at h
          split at h
          case isFalse => simp at h
          case isTrue hd =>
            subst hd
            rw [Option.some.injEq, Prod.mk.injEq] at h
            obtain ⟨ht, hrem⟩ := h
            subst ht
            subst hrem
            have hpref : rest.takeWhile (tagBody ok) <+: rest :=
              List.takeWhile_prefix _
            generalize hg : rest.takeWhile (tagBody ok) = mid at hpref hdrop2 ⊢
            obtain ⟨u, hu⟩ := hpref
            have hu2 : rest.drop mid.length = u := by
              rw [← hu, List.drop_left]
            rw [hu2] at hdrop2
            subst hdrop2
            constructor
            · rw [hs, hdrop, ← hu]
              simp
            · rw [hs, hdrop, ← hu]
              simp [List.length_append]
              omega

/-- Append a character to the front of the first gap (`re.split` building). -/
def modHead (c : Char) : List (List Char) → List (List Char)
  | [] => [[c]]
  | g :: gs => (c :: g) :: gs

/-- Scan `s` left to right for non-overlapping matches of the token regex,
returning the list of gaps (`re.split` without capture groups) and the list
of matched tokens (`re.findall` / `re.finditer`).  The `Nat` fuel is
instantiated with the string length. -/
def scanTags (pre : List Char) (ok : Char → Bool) :
    Nat → List Char → List (List Char) × List (List Char)
  | _, [] => ([[]], [])
  | 0, c :: cs => ([c :: cs], [])
  | n + 1, c :: cs =>
    match tryTag pre ok (c :: cs) with
    | some (t, rem) =>
      ([] :: (scanTags pre ok n rem).1, t :: (scanTags pre ok n rem).2)
    | none =>
      (modHead c (scanTags pre ok n cs).1, (scanTags pre ok n cs).2)

/-- `re.split` gaps and `re.findall` tokens of `s` for a token pattern. -/
def findTokens (pre : List Char) (ok : Char → Bool) (s : List Char) :
    List (List Char) × List (List Char) :=
  scanTags pre ok s.length s

/-- Interleave gaps and tokens back into the original string. -/
def interRaw : List (List Char) → List (List Char) → List Char
  | [], _ => []
  | g :: gs, [] => g ++ interRaw gs []
  | g :: gs, t :: ts => g ++ t ++ interRaw gs ts

theorem modHead_ne_nil (c : Char) (l : List (List Char)) : modHead c l ≠ [] := by
  cases l <;> simp [modHead]

theorem scanTags_gaps_ne_nil (pre : List Char) (ok : Char → Bool) :
    ∀ (n : Nat) (s : List Char), (scanTags pre ok n s).1 ≠ [] := by
  intro n s
  match n, s with
  | n, [] => simp [scanTags]
  | 0, c :: cs => simp [scanTags]
  | n + 1, c :: cs =>
    rw [scanTags]
    cases htry : tryTag pre ok (c :: cs) with
    | some tr =>
      obtain ⟨t, rem⟩ := tr
      simp
    | none =>
      dsimp only
      exact modHead_ne_nil c _

theorem interRaw_modHead (c : Char) (g : List Char) (gs toks : List (List Char)) :
    interRaw ((c :: g) :: gs) toks = c :: interRaw (g :: gs) toks := by
  cases toks <;> simp [interRaw]

theorem scanTags_join (pre : List Char) (ok : Char → Bool) :
    ∀ (n : Nat) (s : List Char), s.length ≤ n →
      interRaw (scanTags pre ok n s).1 (scanTags pre ok n s).2 = s := by
  intro n
  induction n with
  | zero =>
    intro s hs
    have hnil : s = [] := List.eq_nil_of_length_eq_zero (Nat.le_zero.1 hs)
    subst hnil
    simp [scanTags, interRaw]
  | succ n ih =>
    intro s hs
    match s with
    | [] => simp [scanTags, interRaw]
    | c :: cs =>
      rw [scanTags]
      cases htry : tryTag pre ok (c :: cs) with
      | some tr =>
        obtain ⟨t, rem⟩ := tr
        dsimp only
        obtain ⟨hdec, hlen⟩ := tryTag_decomp htry
        have hrem : rem.length ≤ n := by
          simp only [List.length_cons] at hlen hs
          omega
        rw [interRaw, ih rem hrem, hdec]
        simp
      | none =>
        dsimp only
        have hcs : cs.length ≤ n := by
          simp only [List.length_cons] at hs
          omega
        obtain ⟨g, gs, hg⟩ : ∃ g gs, (scanTags pre ok n cs).1 = g :: gs := by
          cases hx : (scanTags pre ok n cs).1 with
          | nil => exact absurd hx (scanTags_gaps_ne_nil pre ok n cs)
          | cons g gs => exact ⟨g, gs, rfl⟩
        rw [hg, modHead, interRaw_modHead, ← hg, ih cs hcs]

/-- `marker[0][1:-1]`: the token text without the surrounding brackets. -/
def innerTok (t : List Char) : List Char := (t.drop 1).dropLast

/-- The replacement `f"<{i},{marker[0][1:-1]}>"`. -/
def mkRepl (i : Nat) (t : List Char) : List Char :=
  '<' :: ((Nat.repr i).data ++ (',' :: (innerTok t ++ ['>'])))

/-- The renumbering loop of `reformatting_body` (also reused verbatim by
`postprocess_footnotes`): for the `i`-th token found in the original page
(`enumerate(markers, 1)` over `re.finditer` of the unmodified string),
replace its first occurrence in the current page with `<i,raw>`. -/
def replLoop : Nat → List Char → List (List Char) → List Char
  | _, cur, [] => cur
  | i, cur, t :: ts => replLoop (i + 1) (replaceFirst cur t (mkRepl i t)) ts

/-- One page segment of `reformatting_body`: renumber all `<...>` tokens. -/
def processPage (page : List Char) : List Char :=
  replLoop 1 page (findTokens [] okDot page).2

/-- `zip_longest(pages, page_anns, fillvalue="")` with `result += page + ann`
(when the page list is exhausted the fill page contributes nothing and the
remaining annotations are appended). -/
def pagesJoin : List (List Char) → List (List Char) → List Char
  | [], as => as.flatten
  | g :: gs, [] => processPage g ++ pagesJoin gs []
  | g :: gs, a :: as => processPage g ++ a ++ pagesJoin gs as

/-- `reformatting_body`: split the formatted body on `<p\S+?>` boundary
tokens, renumber the markers of every page segment, reattach boundaries. -/
def reformatting_body (text : List Char) : List Char :=
  pagesJoin (findTokens ['p'] okNonWs text).1 (findTokens ['p'] okNonWs text).2

/-- Claim-predicted renumbering (follows the spec's words, for comparison):
the `i`-th found token, counted 1..n in encounter order, sits at its original
position rewritten to `<i,raw>`. -/
def intLoop : Nat → List (List Char) → List (List Char) → List Char
  | _, [], _ => []
  | i, g :: gs, [] => g ++ intLoop i gs []
  | i, g :: gs, t :: ts => g ++ mkRepl i t ++ intLoop (i + 1) gs ts

/-- Claim-predicted result for one page segment. -/
def intendedPage (page : List Char) : List Char :=
  intLoop 1 (findTokens [] okDot page).1 (findTokens [] okDot page).2

/-- Claim-predicted result of body reassembly. -/
def intendedJoin : List (List Char) → List (List Char) → List Char
  | [], as => as.flatten
  | g :: gs, [] => intendedPage g ++ intendedJoin gs []
  | g :: gs, a :: as => intendedPage g ++ a ++ intendedJoin gs as

/-- Claim-predicted result of `reformatting_body`. -/
def intendedBody (text : List Char) : List Char :=
  intendedJoin (findTokens ['p'] okNonWs text).1 (findTokens ['p'] okNonWs text).2

/-- Does every `replace(marker, repl, 1)` step of the renumbering loop hit
the matched token's own occurrence (the first occurrence of the token in the
partially rewritten page is at the token's position)? -/
def alignedLoop : Nat → Nat → List Char → List (List Char) → List (List Char) → Bool
  | _, _, _, _, [] => true
  | _, _, _, [], _ :: _ => false
  | i, pos, cur, g :: gs, t :: ts =>
    (firstIdx t cur == some (pos + g.length)) &&
      alignedLoop (i + 1) (pos + g.length + (mkRepl i t).length)
        (replaceFirst cur t (mkRepl i t)) gs ts

/-- Alignment of the whole renumbering pass over one page segment. -/
def alignedPage (page : List Char) : Bool :=
  alignedLoop 1 0 page (findTokens [] okDot page).1 (findTokens [] okDot page).2

theorem intLoop_nil : ∀ (i : Nat) (gs : List (List Char)),
    intLoop i gs [] = interRaw gs [] := by
  intro i gs
  induction gs with
  | nil => rfl
  | cons g gs ih => rw [intLoop, interRaw, ih]

theorem replLoop_of_aligned :
    ∀ (ts gs : List (List Char)) (i : Nat) (P cur : List Char),
      cur = P ++ interRaw gs ts →
      alignedLoop i P.length cur gs ts = true →
      replLoop i cur ts = P ++ intLoop i gs ts := by
  intro ts
  induction ts with
  | nil =>
    intro gs i P cur hcur _
    rw [replLoop, hcur, intLoop_nil]
  | cons t ts ih =>
    intro gs i P cur hcur halign
    cases gs with
    | nil => simp [alignedLoop] at halign
    | cons g gs =>
      rw [alignedLoop, Bool.and_eq_true, beq_iff_eq] at halign
      obtain ⟨hidx, hrest⟩ := halign
      have h1 : cur = (P ++ g) ++ (t ++ interRaw gs ts) := by
        rw [hcur, interRaw]
        simp [List.append_assoc]
      have hstep : replaceFirst cur t (mkRepl i t) =
          P ++ (g ++ (mkRepl i t ++ interRaw gs ts)) := by
        have htake : cur.take (P.length + g.length) = P ++ g := by
          rw [h1]
          exact List.take_left' (by simp only [List.length_append])
        have hdrop : cur.drop (P.length + g.length + t.length) = interRaw gs ts := by
          rw [h1, ← List.append_assoc]
          exact List.drop_left' (by simp only [List.length_append])
        rw [replaceFirst, hidx]
        dsimp only
        rw [htake, hdrop]
        simp [List.append_assoc]
      have hnext := ih gs (i + 1) (P ++ g ++ mkRepl i t)
        (replaceFirst cur t (mkRepl i t))
        (by rw [hstep]; simp [List.append_assoc])
        (by
          have hlen : (P ++ g ++ mkRepl i t).length =
              P.length + g.length + (mkRepl i t).length := by
            simp only [List.length_append]
          rw [hlen]
          exact hrest)
      rw [replLoop, hnext, intLoop]
      simp [List.append_assoc]

theorem processPage_of_aligned {page : List Char} (h : alignedPage page = true) :
    processPage page = intendedPage page := by
  have hjoin := scanTags_join [] okDot page.length page le_rfl
  have := replLoop_of_aligned (findTokens [] okDot page).2
    (findTokens [] okDot page).1 1 [] page (by simpa [findTokens] using hjoin.symm)
    (by simpa [alignedPage] using h)
  simpa [processPage, intendedPage] using this

theorem pagesJoin_of_aligned :
    ∀ (gs as : List (List Char)), (∀ g ∈ gs, alignedPage g = true) →
      pagesJoin gs as = intendedJoin gs as := by
  intro gs
  induction gs with
  | nil =>
    intro as _
    rfl
  | cons g gs ih =>
    intro as hall
    have hg := hall g (List.mem_cons_self g gs)
    have htail := fun x hx => hall x (List.mem_cons_of_mem g hx)
    cases as with
    | nil => rw [pagesJoin, intendedJoin, processPage_of_aligned hg, ih [] htail]
    | cons a as => rw [pagesJoin, intendedJoin, processPage_of_aligned hg, ih as htail]

/-- Claim C2, counterexample: on the page segment `<a><1,a>` the renumbered
output is `<2,1,a><1,a>` — the second replacement's `replace(_, _, 1)` finds
its token `<1,a>` inside the first replacement instead of at its own
position, so the final tokens carry indices 2,1 instead of 1,2. -/
theorem reformatting_body_misnumbered :
    reformatting_body "<a><1,a>".data ≠ intendedBody "<a><1,a>".data ∧
    reformatting_body "<a><1,a>".data = "<2,1,a><1,a>".data := by
  constructor <;> decide

/-- Claim C2 (amended): whenever every `replace`-first-occurrence step of a
page segment targets the matched token's own occurrence (`alignedPage` — in
particular whenever no token text reappears inside an earlier replacement),
`reformatting_body` rewrites each page segment's `<...>` tokens, in encounter
order, to exactly `<1,raw>`, `<2,raw>`, ..., `<n,raw>` with the page
boundaries reattached unchanged. -/
theorem reformatting_body_per_page_numbering :
    ∀ text : List Char,
      (findTokens ['p'] okNonWs text).1.all alignedPage = true →
      reformatting_body text = intendedBody text := by
  intro text hall
  rw [reformatting_body, intendedBody]
  exact pagesJoin_of_aligned _ _ (fun g hg => List.all_eq_true.1 hall g hg)

/-- Claim C2, witness: the segments of `k<x>m<y><p1-2>j<z>` are aligned and
reassemble to `k<1,x>m<2,y><p1-2>j<1,z>`. -/
theorem reformatting_body_per_page_numbering_witness :
    reformatting_body "k<x>m<y><p1-2>j<z>".data =
      intendedBody "k<x>m<y><p1-2>j<z>".data ∧
    reformatting_body "k<x>m<y><p1-2>j<z>".data =
      "k<1,x>m<2,y><p1-2>j<1,z>".data :=
  ⟨reformatting_body_per_page_numbering "k<x>m<y><p1-2>j<z>".data (by decide),
   by decide⟩

/-- The lazy `\S*?` step of `re.search(fr"{vol}\S*?(\d+)", diff)`: skip
non-whitespace, non-digit characters until the first digit, whose greedy
`\d+` run is the page-number group; a whitespace character kills the match
at this position. -/
def digitsAfterSkip : List Char → Option (List Char)
  | [] => none
  | c :: cs =>
    if isDigitU c then some ((c :: cs).takeWhile isDigitU)
    else if isWs c then none
    else digitsAfterSkip cs

/-- `re.search(fr"{vol}\S*?(\d+)", diff)`: first position where the volume
literal is followed (after `\S*?`) by a digit run. -/
def searchVolDigits (volStr : List Char) : List Char → Option (List Char)
  | [] => none
  | c :: cs =>
    match (if volStr.isPrefixOf (c :: cs) then
        digitsAfterSkip ((c :: cs).drop volStr.length) else none) with
    | some ds => some ds
    | none => searchVolDigits volStr cs

/-- `get_pg_ann`: extract the page number after the volume number and render
`f"<p{vol_num}-{pg_num}>"`.  A failed search makes `pg_pat.group(1)` raise
(`pg_pat` is `None`), modelled as `none`. -/
def get_pg_ann (diff : List Char) (vol : Nat) : Option (List Char) :=
  match searchVolDigits (Nat.repr vol).data diff with
  | none => none
  | some pg => some ('<' :: 'p' :: ((Nat.repr vol).data ++ ('-' :: (pg ++ ['>']))))

/-- The `(\d+)>` tail of `fr"<p{vol}-(\d+)>"`: a non-empty digit run closed
by `>`. -/
def digitsThenGt (r : List Char) : Option (List Char) :=
  match r.takeWhile isDigitU, r.drop (r.takeWhile isDigitU).length with
  | [], _ => none
  | _ :: _, [] => none
  | d :: dt, e :: _ => if e = '>' then some (d :: dt) else none

/-- Match `fr"<p{vol}-(\d+)>"` at the head of `s`. -/
def tryPgNum (volStr : List Char) (s : List Char) : Option (List Char) :=
  if ('<' :: 'p' :: (volStr ++ ['-'])).isPrefixOf s then
    digitsThenGt (s.drop (volStr.length + 3))
  else none

/-- `re.search(fr"<p{vol}-(\d+)>", body_text)`. -/
def searchPgNum (volStr : List Char) : List Char → Option (List Char)
  | [] => none
  | c :: cs =>
    match tryPgNum volStr (c :: cs) with
    | some ds => some ds
    | none => searchPgNum volStr cs

/-- `int()` over a digit run (Python `int` accepts Tibetan digits too). -/
def digitsVal (ds : List Char) : Nat :=
  ds.foldl
    (fun acc c => 10 * acc + (if isTibDigit c then c.toNat - 0xF20 else c.toNat - 0x30))
    0

/-- The observable failure of page-number extraction: the code's actual
`AttributeError` (calling `.group(1)` on the `None` returned by a failed
`re.search`), versus the distinct `PageNotFound` condition the spec names —
no such exception exists anywhere in the code. -/
inductive PgOutcome where
  | attributeError
  | pageNotFound
  deriving DecidableEq

/-- `get_page_num`: extract the page number of the rendered boundary token
for the given volume; on no match the code raises `AttributeError`. -/
def get_page_num (body : List Char) (vol : Nat) : Except PgOutcome Nat :=
  match searchPgNum (Nat.repr vol).data body with
  | none => .error .attributeError
  | some ds => .ok (digitsVal ds)

/-- `re.search("<p.+>", marker)`: does the token contain `<p`, one or more
non-newline characters, and a later `>`? -/
def seekGt : List Char → Bool
  | [] => false
  | c :: cs => if c = '>' then true else if c = '\n' then false else seekGt cs

/-- Search for the `<p.+>` pattern anywhere in a string. -/
def hasPgSub : List Char → Bool
  | '<' :: 'p' :: x :: xs => (!(x == '\n') && seekGt xs) || hasPgSub ('p' :: x :: xs)
  | _ :: cs => hasPgSub cs
  | [] => false

/-- Python `str.split(sep)` (always at least one part). -/
def splitOnC (sep : Char) : List Char → List (List Char)
  | [] => [[]]
  | c :: cs =>
    if c = sep then [] :: splitOnC sep cs
    else
      match splitOnC sep cs with
      | [] => [[c]]
      | g :: gs => (c :: g) :: gs

/-- One iteration of the `merge_footnotes_per_page` loop on the pair
(marker token `m`, footnote string `fn`) and current outputs `(w, wo)`:
a token containing `<p...>` is replaced by itself; otherwise the token body
must split on `,` into at least two parts (else `marker_parts[1]` raises
IndexError, modelled as `none`), the footnote string is decomposed with
empty defaults for its missing parts, and the combined / note-only
replacements are substituted for the token's first occurrence. -/
def mergeStep (m fn w wo : List Char) : Option (List Char × List Char) :=
  if hasPgSub m then
    some (replaceFirst w m m, replaceFirst wo m m)
  else
    match splitOnC ',' (innerTok m) with
    | p0 :: p1 :: _ =>
      some (replaceFirst w m
          ('<' :: (p0 ++ (',' :: (p1 ++ (';' ::
            (((splitOnC ',' ((splitOnC '>' fn).headD [])).headD []).drop 1 ++
              (',' :: ((splitOnC ',' ((splitOnC '>' fn).headD [])).getD 1 [] ++
                (',' :: ((splitOnC '>' fn).getD 1 [] ++ ['>'])))))))))),
        replaceFirst wo m ('<' :: ((splitOnC '>' fn).getD 1 [] ++ ['>'])))
    | _ => none

/-- The `for i, (marker, foot_note) in enumerate(zip(markers, foot_notes))`
loop of `merge_footnotes_per_page`. -/
def mergeLoop : List Char → List Char → List (List Char × List Char) →
    Option (List Char × List Char)
  | w, wo, [] => some (w, wo)
  | w, wo, (m, fn) :: rest =>
    match mergeStep m fn w wo with
    | none => none
    | some (w', wo') => mergeLoop w' wo' rest

/-- `merge_footnotes_per_page`: zip the page's `<...>` tokens (found once in
the original page) against the footnote list — `zip` truncates to the
shorter — and perform the replacements on both outputs. -/
def merge_footnotes_per_page (page : List Char) (foot_notes : List (List Char)) :
    Option (List Char × List Char) :=
  mergeLoop page page (((findTokens [] okDot page).2).zip foot_notes)

theorem append_drop_restore {l m : List Char} (h : m <+: l) :
    l = m ++ l.drop m.length := by
  obtain ⟨u, hu⟩ := h
  subst hu
  rw [List.drop_left]

theorem takeWhile_all {p : Char → Bool} :
    ∀ {l : List Char}, l.all p = true → l.takeWhile p = l := by
  intro l
  induction l with
  | nil => intro _; rfl
  | cons a t ih =>
    intro h
    simp only [List.all_cons, Bool.and_eq_true] at h
    rw [List.takeWhile_cons_of_pos h.1, ih h.2]

theorem splitOnC_ne_nil (sep : Char) : ∀ s : List Char, splitOnC sep s ≠ [] := by
  intro s
  induction s with
  | nil => simp [splitOnC]
  | cons c cs ih =>
    rw [splitOnC]
    split
    · simp
    · cases h : splitOnC sep cs with
      | nil => simp
      | cons g gs => simp

theorem splitOnC_two_of_mem {sep : Char} :
    ∀ {s : List Char}, sep ∈ s → 2 ≤ (splitOnC sep s).length := by
  intro s
  induction s with
  | nil => intro h; cases h
  | cons c cs ih =>
    intro hmem
    rw [splitOnC]
    by_cases hc : c = sep
    · rw [if_pos hc]
      have hnn := splitOnC_ne_nil sep cs
      have hpos : 1 ≤ (splitOnC sep cs).length := List.length_pos.2 hnn
      simp only [List.length_cons]
      omega
    · rw [if_neg hc]
      have hcs : sep ∈ cs := by
        cases List.mem_cons.1 hmem with
        | inl h => exact absurd h.symm hc
        | inr h => exact h
      have h2 := ih hcs
      cases h : splitOnC sep cs with
      | nil => exact absurd h (splitOnC_ne_nil sep cs)
      | cons g gs =>
        rw [h] at h2
        dsimp only
        simp only [List.length_cons] at h2 ⊢
        omega

theorem zip_take_self {α β : Type} :
    ∀ (l : List α) (l' : List β), l.zip l' = l.zip (l'.take l.length) := by
  intro l
  induction l with
  | nil => intro l'; simp
  | cons a t ih =>
    intro l'
    cases l' with
    | nil => simp
    | cons b t' => simp [ih t']

theorem mergeLoop_isSome :
    ∀ (prs : List (List Char × List Char)) (w wo : List Char),
      (∀ p ∈ prs, hasPgSub p.1 = true ∨ ',' ∈ innerTok p.1) →
      (mergeLoop w wo prs).isSome = true := by
  intro prs
  induction prs with
  | nil => intro w wo _; rfl
  | cons p rest ih =>
    intro w wo hall
    obtain ⟨m, fn⟩ := p
    rw [mergeLoop]
    have hstep : ∃ w' wo', mergeStep m fn w wo = some (w', wo') := by
      rw [mergeStep]
      by_cases hpg : hasPgSub m = true
      · rw [if_pos hpg]
        exact ⟨_, _, rfl⟩
      · rw [if_neg hpg]
        have hcomma : ',' ∈ innerTok m := by
          rcases hall (m, fn) (List.mem_cons_self _ _) with h | h
          · exact absurd h hpg
          · exact h
        have h2 := splitOnC_two_of_mem hcomma
        cases hsp : splitOnC ',' (innerTok m) with
        | nil => rw [hsp] at h2; simp at h2
        | cons a l2 =>
          cases l2 with
          | nil => rw [hsp] at h2; simp at h2
          | cons b t =>
            exact ⟨_, _, rfl⟩
    obtain ⟨w', wo', hs⟩ := hstep
    rw [hs]
    exact ih w' wo' (fun q hq => hall q (List.mem_cons_of_mem _ hq))

/-- Claim C3, counterexample: with two body markers and only one footnote,
`zip` truncates and the second marker `<2,b>` receives no replacement at
all — it survives verbatim in both outputs instead of being merged with an
empty note. -/
theorem merge_footnotes_unpaired_marker_left :
    merge_footnotes_per_page "<1,a><2,b>".data ["<1,a>x".data] =
      some ("<1,a;1,a,x><2,b>".data, "<x><2,b>".data) ∧
    containsSub "<x><2,b>".data "<2,b>".data = true := by
  constructor <;> decide

/-- Claim C3 (amended): the merge never fails on a count mismatch — when the
footnote list is empty the page passes through untouched, surplus footnotes
beyond the marker count are ignored (`zip` truncation), and on the footnote
side of each surviving pair the missing components default to empty strings
(so the merge succeeds whenever every body token is a page token or has a
comma) — but body markers beyond the footnote list length are left
unreplaced rather than merged with empty notes. -/
theorem merge_footnotes_mismatch_behavior :
    (∀ (page : List Char) (notes : List (List Char)),
      merge_footnotes_per_page page notes =
        merge_footnotes_per_page page
          (notes.take (findTokens [] okDot page).2.length)) ∧
    (∀ page : List Char, merge_footnotes_per_page page [] = some (page, page)) ∧
    (∀ (page : List Char) (notes : List (List Char)),
      (∀ m ∈ (findTokens [] okDot page).2, hasPgSub m = true ∨ ',' ∈ innerTok m) →
      (merge_footnotes_per_page page notes).isSome = true) := by
  refine ⟨?_, ?_, ?_⟩
  · intro page notes
    rw [merge_footnotes_per_page, merge_footnotes_per_page, ← zip_take_self]
  · intro page
    rw [merge_footnotes_per_page]
    simp [mergeLoop]
  · intro page notes hall
    apply mergeLoop_isSome
    intro p hp
    obtain ⟨m, fn⟩ := p
    exact hall m (List.of_mem_zip hp).1

/-- Claim C3, witness: the merge succeeds on a concrete page whose tokens
all carry commas, with a surplus footnote ignored. -/
theorem merge_footnotes_mismatch_behavior_witness :
    (merge_footnotes_per_page "<1,a><2,b>".data
      ["<1,a>x".data, "<2,b>y".data, "<3,c>z".data]).isSome = true :=
  merge_footnotes_mismatch_behavior.2.2 "<1,a><2,b>".data
    ["<1,a>x".data, "<2,b>y".data, "<3,c>z".data] (by decide)

theorem digitsThenGt_decomp {r ds : List Char} (h : digitsThenGt r = some ds) :
    ds ≠ [] ∧ ds.all isDigitU = true ∧ ∃ post, r = ds ++ ('>' :: post) := by
  rw [digitsThenGt] at h
  cases htw : r.takeWhile isDigitU with
  | nil => rw [htw] at h; simp at h
  | cons d dt =>
    rw [htw] at h
    cases hdr : r.drop (d :: dt).length with
    | nil => rw [hdr] at h; simp at h
    | cons e post =>
      rw [hdr] at h
      dsimp only at h
      split at h
      case isFalse => simp at h
      case isTrue he =>
        subst he
        rw [Option.some.injEq] at h
        subst h
        have hpref : r.takeWhile isDigitU <+: r := List.takeWhile_prefix _
        have hr := append_drop_restore hpref
        rw [htw] at hr
        rw [hdr] at hr
        refine ⟨by simp, ?_, post, hr⟩
        rw [List.all_eq_true]
        intro x hx
        exact List.mem_takeWhile_imp (htw ▸ hx)

theorem tryPgNum_decomp {volStr s ds : List Char}
    (h : tryPgNum volStr s = some ds) :
    ds ≠ [] ∧ ds.all isDigitU = true ∧
      ∃ post, s = '<' :: 'p' :: (volStr ++ ('-' :: (ds ++ ('>' :: post)))) := by
  rw [tryPgNum] at h
  split at h
  case isFalse => simp at h
  case isTrue hpre =>
    have hlen : ('<' :: 'p' :: (volStr ++ ['-'])).length = volStr.length + 3 := by
      simp only [List.length_cons, List.length_append, List.length_nil]
    have hs := isPrefixOf_decomp hpre
    rw [hlen] at hs
    obtain ⟨hne, hall, post, hr⟩ := digitsThenGt_decomp h
    refine ⟨hne, hall, post, ?_⟩
    rw [hs, hr]
    simp

theorem searchPgNum_decomp {volStr : List Char} :
    ∀ {body ds : List Char}, searchPgNum volStr body = some ds →
      ∃ pre post, ds ≠ [] ∧ ds.all isDigitU = true ∧
        body = pre ++ ('<' :: 'p' :: (volStr ++ ('-' :: (ds ++ ('>' :: post))))) := by
  intro body
  induction body with
  | nil => intro ds h; simp [searchPgNum] at h
  | cons c cs ih =>
    intro ds h
    rw [searchPgNum] at h
    cases htry : tryPgNum volStr (c :: cs) with
    | some ds2 =>
      rw [htry] at h
      rw [Option.some.injEq] at h
      subst h
      obtain ⟨hne, hall, post, hdec⟩ := tryPgNum_decomp htry
      exact ⟨[], post, hne, hall, by simpa using hdec⟩
    | none =>
      rw [htry] at h
      obtain ⟨pre, post, hne, hall, hdec⟩ := ih h
      exact ⟨c :: pre, post, hne, hall, by rw [List.cons_append, ← hdec]⟩

/-- Claim C4, counterexample: on body text with no boundary token the code
fails with the generic AttributeError of `None.group(1)` — precisely the
kind of unrelated error the claim rules out — not with any distinct
PageNotFound condition (no such exception exists in the code). -/
theorem get_page_num_generic_error :
    get_page_num "ཀཁག".data 1 = Except.error PgOutcome.attributeError ∧
    PgOutcome.attributeError ≠ PgOutcome.pageNotFound := by
  exact ⟨rfl, by decide⟩

/-- Claim C4 (amended): when the reassembled body text contains no rendered
boundary token `<p{vol}-N>` for the volume, page-number extraction does fail
rather than silently defaulting — but the failure is the generic
AttributeError, not a distinct PageNotFound condition. -/
theorem get_page_num_fails_without_boundary :
    ∀ (body : List Char) (vol : Nat),
      (¬ ∃ pre ds post, ds ≠ [] ∧ ds.all isDigitU = true ∧
        body = pre ++ ('<' :: 'p' ::
          ((Nat.repr vol).data ++ ('-' :: (ds ++ ('>' :: post)))))) →
      get_page_num body vol = Except.error PgOutcome.attributeError := by
  intro body vol hno
  rw [get_page_num]
  cases hs : searchPgNum (Nat.repr vol).data body with
  | none => rfl
  | some ds =>
    obtain ⟨pre, post, hne, hall, hdec⟩ := searchPgNum_decomp hs
    exact absurd ⟨pre, ds, post, hne, hall, hdec⟩ hno

/-- Claim C4, witness: at the two-character body "ཀཁ" (too short to contain
any boundary token) extraction fails with the AttributeError outcome. -/
theorem get_page_num_fails_without_boundary_witness :
    get_page_num "ཀཁ".data 1 = Except.error PgOutcome.attributeError :=
  get_page_num_fails_without_boundary "ཀཁ".data 1 (by
    rintro ⟨pre, ds, post, hne, hall, heq⟩
    have hlen := congrArg List.length heq
    have hds : 1 ≤ ds.length := List.length_pos.2 hne
    simp only [List.length_append, List.length_cons, List.length_nil] at hlen
    omega)

theorem digitsAfterSkip_dash {pg : List Char} (hne : pg ≠ [])
    (hall : pg.all isDigitU = true) : digitsAfterSkip ('-' :: pg) = some pg := by
  rw [digitsAfterSkip, if_neg (by decide), if_neg (by decide)]
  cases pg with
  | nil => exact absurd rfl hne
  | cons d dt =>
    simp only [List.all_cons, Bool.and_eq_true] at hall
    rw [digitsAfterSkip, if_pos hall.1, takeWhile_all]
    simp [List.all_cons, hall.1, hall.2]

theorem searchVolDigits_at_zero {volStr rest ds : List Char}
    (hmatch : digitsAfterSkip rest = some ds) :
    searchVolDigits volStr (volStr ++ rest) = some ds := by
  cases hv : volStr ++ rest with
  | nil =>
    have hrest : rest = [] := (List.append_eq_nil.1 hv).2
    subst hrest
    simp [digitsAfterSkip] at hmatch
  | cons c cs =>
    have hpre : volStr.isPrefixOf (c :: cs) = true := by
      rw [List.isPrefixOf_iff_prefix, ← hv]
      exact List.prefix_append volStr rest
    have hdrop : (c :: cs).drop volStr.length = rest := by
      rw [← hv, List.drop_left]
    rw [searchVolDigits, hpre]
    simp only [if_true]
    rw [hdrop, hmatch]

/-- Claim C5, counterexample: the boundary token renders as `<p1-23>`, not
as the claimed `<1-23>`. -/
theorem get_pg_ann_renders_with_p :
    get_pg_ann "1-23".data 1 = some "<p1-23>".data ∧
    some "<p1-23>".data ≠ (some "<1-23>".data : Option (List Char)) := by
  constructor <;> decide

/-- Claim C5 (amended): the boundary token for volume V, page N renders as
`<pV-N>` (with the `p` prefix), and the page merger's step for any token
containing `<p...>` substitutes the token for itself, leaving both outputs
exactly as they were. -/
theorem pg_ann_render_and_merge_identity :
    (∀ (vol : Nat) (pg : List Char), pg ≠ [] → pg.all isDigitU = true →
      get_pg_ann ((Nat.repr vol).data ++ ('-' :: pg)) vol =
        some ('<' :: 'p' :: ((Nat.repr vol).data ++ ('-' :: (pg ++ ['>']))))) ∧
    (∀ m fn w wo : List Char, hasPgSub m = true →
      mergeStep m fn w wo = some (w, wo)) := by
  constructor
  · intro vol pg hne hall
    rw [get_pg_ann, searchVolDigits_at_zero (digitsAfterSkip_dash hne hall)]
  · intro m fn w wo hpg
    rw [mergeStep, if_pos hpg, replaceFirst_self, replaceFirst_self]

/-- Claim C5, witness: volume 3, page 142 renders as `<p3-142>`, and the
merge step on `<p3-142>` leaves a concrete page pair untouched. -/
theorem pg_ann_render_and_merge_identity_witness :
    get_pg_ann "3-142".data 3 = some "<p3-142>".data ∧
    mergeStep "<p3-142>".data "<1,a>x".data "q<p3-142>w".data "q<p3-142>w".data =
      some ("q<p3-142>w".data, "q<p3-142>w".data) :=
  ⟨by
    have h := pg_ann_render_and_merge_identity.1 3 "142".data (by decide) (by decide)
    simpa using h,
   pg_ann_render_and_merge_identity.2 "<p3-142>".data "<1,a>x".data
     "q<p3-142>w".data "q<p3-142>w".data (by decide)⟩

/-- The circled-glyph class of a demultiply pattern: `[①-⑨]` (U+2460..U+2468)
for the explicit `<m..>` form, `[①-⓪]` (U+2460..U+24EA) for the page form. -/
def circledFor (mForm : Bool) (c : Char) : Bool :=
  if mForm then 0x2460 ≤ c.toNat && c.toNat ≤ 0x2468
  else isCircleRange c

/-- Parse the shared prefix group after `\n<` of a demultiply pattern:
`m` for the explicit-marker form, `\d+,` for the page form. -/
def demulPrefix (mForm : Bool) (rest : List Char) : Option (List Char × List Char) :=
  if mForm then
    match rest with
    | c :: r2 => if c = 'm' then some (['m'], r2) else none
    | [] => none
  else
    match rest.takeWhile isDigitU, rest.drop (rest.takeWhile isDigitU).length with
    | [], _ => none
    | _ :: _, [] => none
    | d :: dt, e :: r2 => if e = ',' then some ((d :: dt) ++ [','], r2) else none

/-- Take exactly `k` glyphs of the class. -/
def glyphsSplit (mForm : Bool) : Nat → List Char → Option (List Char × List Char)
  | 0, s => some ([], s)
  | _ + 1, [] => none
  | k + 1, c :: cs =>
    if circledFor mForm c then
      match glyphsSplit mForm k cs with
      | some (gs, r) => some (c :: gs, r)
      | none => none
    else none

/-- Match one demultiply rewrite rule at the head of `s`: `\n<`, the shared
prefix group, exactly `k` bundled glyphs, `>`, and a non-empty rest of line
(`>.+`, group for the shared suffix).  On a match, return the replacement —
one line per glyph carrying the shared prefix and suffix — and the
remainder of the text after the match. -/
def tryDemul (mForm : Bool) (k : Nat) (s : List Char) : Option (List Char × List Char) :=
  match s with
  | '\n' :: '<' :: rest =>
    match demulPrefix mForm rest with
    | none => none
    | some (p, r2) =>
      match glyphsSplit mForm k r2 with
      | none => none
      | some (gs, r3) =>
        match r3 with
        | '>' :: r4 =>
          match r4.takeWhile (fun c => !(c == '\n')) with
          | [] => none
          | b :: bs =>
            some ((gs.map (fun g =>
                ('\n' :: '<' :: (p ++ [g])) ++ ('>' :: (b :: bs)))).flatten,
              r4.drop (b :: bs).length)
        | _ => none
  | _ => none

/-- One full `re.sub` pass of a demultiply rule over the text (fuel is the
text length). -/
def subDemul (mForm : Bool) (k : Nat) : Nat → List Char → List Char
  | _, [] => []
  | 0, c :: cs => c :: cs
  | fuel + 1, c :: cs =>
    match tryDemul mForm k (c :: cs) with
    | some (rep, rest) => rep ++ subDemul mForm k fuel rest
    | none => c :: subDemul mForm k fuel cs

/-- Apply one demultiply rule everywhere in `t`. -/
def applyDemul (mForm : Bool) (k : Nat) (t : List Char) : List Char :=
  subDemul mForm k t.length t

/-- `demultiply_diffs`: the five rewrite rules in source order — 5-glyph
page form, 2-glyph `<m..>` form, 4-glyph, 3-glyph, 2-glyph page forms. -/
def demultiply_diffs (t : List Char) : List Char :=
  applyDemul false 2
    (applyDemul false 3
      (applyDemul false 4
        (applyDemul true 2
          (applyDemul false 5 t))))

/-- `re.sub("(<+)", "\n\1", text)`: insert a newline before every maximal
run of `<`.  The flag records whether the previous character was `<`. -/
def insNl : Bool → List Char → List Char
  | _, [] => []
  | prevLt, c :: cs =>
    if c = '<' && !prevLt then '\n' :: c :: insNl true cs
    else c :: insNl (c == '<') cs

/-- `reformat_footnotes`: drop newlines, newline-prefix every tag, then
demultiply composite marker tags. -/
def reformat_footnotes (t : List Char) : List Char :=
  demultiply_diffs (insNl false (t.filter (fun c => !(c == '\n'))))

/-- Claim C8, counterexample: applied directly to `<12,①②③>note`,
`demultiply_diffs` returns the input unchanged — every rewrite rule requires
a newline before the `<`, which this input lacks — instead of producing the
three claimed lines. -/
theorem demultiply_diffs_requires_newline :
    demultiply_diffs "<12,①②③>note".data = "<12,①②③>note".data ∧
    "<12,①②③>note".data ≠ "<12,①>note\n<12,②>note\n<12,③>note".data := by
  constructor <;> decide

/-- Claim C8 (amended): the demultiply rules fire on newline-prefixed tags;
through `reformat_footnotes` (which newline-prefixes every tag before
demultiplying, as the footnote pipeline does) the composite tag
`<12,①②③>note` expands to the three lines `<12,①>note`, `<12,②>note`,
`<12,③>note` in that order. -/
theorem reformat_footnotes_demultiplies :
    reformat_footnotes "<12,①②③>note".data =
      "\n<12,①>note\n<12,②>note\n<12,③>note".data := by
  decide

/-- Python `str.splitlines` (newline separators only, no trailing empty
line). -/
def pySplitLines (s : List Char) : List (List Char) :=
  if s = [] then []
  else if s.getLast? = some '\n' then splitOnC '\n' s.dropLast
  else splitOnC '\n' s

/-- Python `str.strip()`. -/
def pyStrip (s : List Char) : List Char :=
  ((s.dropWhile isWs).reverse.dropWhile isWs).reverse

/-- After `<x`, find a `>` followed by at least one non-newline character,
with only non-newline characters before it. -/
def seekGtChar : List Char → Bool
  | [] => false
  | c :: cs =>
    if c = '>' then
      match cs with
      | y :: _ => !(y == '\n')
      | [] => false
    else if c = '\n' then false
    else seekGtChar cs

/-- `re.search("<.+?>(.+?)", marker)`: some tag match is followed by at
least one (non-newline) character. -/
def tokThenChar : List Char → Bool
  | '<' :: x :: xs => (!(x == '\n') && seekGtChar xs) || tokThenChar (x :: xs)
  | _ :: cs => tokThenChar cs
  | [] => false

/-- The noise filter of `postprocess_footnotes`: keep a line if a tag with
trailing note text is found, or if the line has no `<` at all. -/
def keepLine (marker : List Char) : Bool :=
  if tokThenChar marker then true else !(marker.contains '<')

/-- Lines of one renumbered footnote page: split, strip, drop empties and
bare tags. -/
def pageLines (page : List Char) : List (List Char) :=
  ((pySplitLines page).map pyStrip).filter (fun m => !(m == []) && keepLine m)

/-- `first_ref.translate(maketrans("༡༢༣༤༥༦༧༨༩༠", "1234567890", "<r>"))`. -/
def translateRef (s : List Char) : List Char :=
  (s.filter (fun c => !(c == '<') && !(c == 'r') && !(c == '>'))).map
    (fun c => if isTibDigit c then tibToArab c else c)

/-- Python `int()` over the translated reference (accepts decimal digits;
anything else raises ValueError, modelled as `none`). -/
def parsePyInt (s : List Char) : Option Nat :=
  if s ≠ [] && s.all isDigitU then some (digitsVal s) else none

/-- The page loop of `postprocess_footnotes`: each zipped (page, ref) pair
gets the next sequential key; the page is marker-renumbered (the same
renumbering loop as the body reassembler) and reduced to its kept lines. -/
def notesLoop : Nat → List (List Char × List Char) → List (Nat × List (List Char))
  | _, [] => []
  | walker, (page, _) :: rest =>
    (walker, pageLines (processPage page)) :: notesLoop (walker + 1) rest

/-- `postprocess_footnotes`: find the `<r...>` page references, start from
the first reference's translated numeral, and build the footnote table.
Indexing `page_refs[0]` on an empty reference list raises IndexError,
modelled as `none`; an untranslatable first reference raises ValueError in
`int()`, also `none`. -/
def postprocess_footnotes (fo : List Char) : Option (List (Nat × List (List Char))) :=
  match (findTokens ['r'] okDot fo).2 with
  | [] => none
  | first_ref :: _ =>
    match parsePyInt (translateRef first_ref) with
    | none => none
    | some start =>
      some (notesLoop start
        (((findTokens ['r'] okDot fo).1.drop 1).zip (findTokens ['r'] okDot fo).2))

/-- Claim C10: a formatted footnote string containing no `<r...>` page
reference makes `postprocess_footnotes` (and hence `reconstruct_footnote`,
which calls it last) fail by indexing the empty reference list, rather than
returning an empty or sequentially numbered footnote table: at least one
page reference is a de-facto precondition. -/
theorem postprocess_footnotes_requires_page_ref :
    ∀ fo : List Char, (findTokens ['r'] okDot fo).2 = [] →
      postprocess_footnotes fo = none := by
  intro fo h
  rw [postprocess_footnotes, h]

/-- Claim C10, witness: a footnote text with a marker tag but no page
reference fails. -/
theorem postprocess_footnotes_requires_page_ref_witness :
    postprocess_footnotes "<1,①>ཀ\n".data = none :=
  postprocess_footnotes_requires_page_ref "<1,①>ཀ\n".data (by decide)

/-- An unfiltered diff entry `[diff_type, diff_text]` (dmp op and text). -/
structure DiffE where
  typ : Int
  text : List Char

/-- A filtered diff entry `[diff_type, diff_text, diff_tag]`. -/
structure Entry where
  typ : Int
  text : List Char
  tag : String

/-- The first maximal space run of `diff` (`re.search(" +", diff)`). -/
def firstSpaceRun : List Char → Option (List Char)
  | [] => none
  | c :: cs =>
    if c = ' ' then some (' ' :: cs.takeWhile (fun x => x == ' '))
    else firstSpaceRun cs

/-- `rm_noise`: for each of the patterns `\n`, ` +`, `་+?`, search the
ORIGINAL diff and, on a hit, remove every occurrence of the matched string
from the accumulating result (`str.replace` removes all occurrences; for
the single-character matches of `\n` and the lazy `་+?` this deletes every
such character). -/
def rm_noise (diff : List Char) : List Char :=
  let s1 := if diff.contains '\n' then diff.filter (fun c => !(c == '\n')) else diff
  let s2 := match firstSpaceRun diff with
    | some run => eraseAllSub run s1
    | none => s1
  if diff.contains '་' then s2.filter (fun c => !(c == '་')) else s2

/-- `is_punct`: membership of the WHOLE string in the punctuation list
`["་", "།", "༔", ":", "། །", "༄", "༅"]` (the Python `in` test compares
full strings, including the three-character `"། །"`). -/
def is_punct (t : List Char) : Bool :=
  t == ['་'] || t == ['།'] || t == ['༔'] || t == [':'] ||
    t == ['།', ' ', '།'] || t == ['༄'] || t == ['༅']

/-- `isvowel`: the four Tibetan vowel signs U+0F74, U+0F72, U+0F7A, U+0F7C. -/
def isvowel (c : Char) : Bool :=
  c == 'ུ' || c == 'ི' || c == 'ེ' || c == 'ོ'

/-- `is_midsyl`: the current diff sits mid-syllable when, after stripping
newlines from both neighbours, neither the left neighbour's last character
nor the right neighbour's first character is punctuation. -/
def is_midsyl (left right : List Char) : Bool :=
  if left.isEmpty then false
  else if (right.filter (fun c => !(c == '\n'))).isEmpty ||
      (left.filter (fun c => !(c == '\n'))).isEmpty then false
  else if !is_punct [(left.filter (fun c => !(c == '\n'))).getLastD ' '] &&
      !is_punct [(right.filter (fun c => !(c == '\n'))).headD ' '] then true
  else false

/-- The backward walk of `double_mid_syl_marker` over the reversed result:
stop with True at the first punctuation entry, with False at a marker entry
before that; walking past the front is an IndexError (`none`). -/
def dmsmGo : List Entry → Option Bool
  | [] => none
  | e :: rest =>
    if is_punct e.text then some true
    else if e.tag = "marker" then some false
    else dmsmGo rest

/-- `double_mid_syl_marker`. -/
def double_mid_syl_marker (result : List Entry) : Option Bool :=
  dmsmGo result.reverse

/-- `result[-1][1] = f(result[-1][1])`; IndexError on an empty list. -/
def pyUpdateLastText (l : List Entry) (f : List Char → List Char) :
    Option (List Entry) :=
  match l.getLast? with
  | none => none
  | some e => some (l.dropLast ++ [⟨e.typ, f e.text, e.tag⟩])

/-- `diffs[i][1] = f(diffs[i][1])`; IndexError out of range. -/
def pyUpdateTextAt (l : List DiffE) (i : Nat) (f : List Char → List Char) :
    Option (List DiffE) :=
  match l[i]? with
  | none => none
  | some d => some (l.set i ⟨d.typ, f d.text⟩)

/-- Python `s[:-n]` for `n = len(lastsyl)`: note that `-0` is `0`, so the
slice is EMPTY when `n = 0`. -/
def pySliceNeg (t : List Char) (n : Nat) : List Char :=
  if n = 0 then [] else t.take (t.length - n)

/-- `re.split("(་|།)", s)[0]`: the prefix before the first separator. -/
def firstSylOf (s : List Char) : List Char :=
  s.takeWhile (fun c => !(c == '་') && !(c == '།'))

/-- `s.split("་")[-1]`: the suffix after the last tseg. -/
def lastSylOf (s : List Char) : List Char :=
  (s.reverse.takeWhile (fun c => !(c == '་'))).reverse

/-- `handle_mid_syl`: relocate syllable fragments so the marker boundary
falls at a syllable edge, then append the noise-stripped current diff as a
marker entry.  Returns the updated `(result, diffs)` pair; `none` models the
IndexErrors of `result[-1]` / `diffs[i+1]` / `left_diff[1][-1]` /
`right_diff_text[0]` and of the backward walk.  Note `left_diff[0] !=
(0 or 1)` in the source evaluates as `left_diff[0] != 1`. -/
def handle_mid_syl (result : List Entry) (diffs : List DiffE) (left_diff : DiffE)
    (i : Nat) (diff : DiffE) (right_diff_text : List Char) (marker_type : String) :
    Option (List Entry × List DiffE) :=
  match double_mid_syl_marker result with
  | none => none
  | some false => some (result, diffs)
  | some true =>
    match left_diff.text.getLast? with
    | none => none
    | some lc =>
      if lc = ' ' then
        match pyUpdateLastText result (fun t => t.take (t.length - 2)) with
        | none => none
        | some r1 =>
          match pyUpdateTextAt diffs (i + 1)
              (fun t => left_diff.text.drop (left_diff.text.length - 2) ++ t) with
          | none => none
          | some d1 => some (r1 ++ [⟨1, rm_noise diff.text, marker_type⟩], d1)
      else
        match right_diff_text.head? with
        | none => none
        | some rc =>
          if rc = ' ' then
            some (result ++ [⟨1, rm_noise diff.text, marker_type⟩], diffs)
          else if isvowel lc then
            match pyUpdateLastText result (fun t => t ++ firstSylOf right_diff_text) with
            | none => none
            | some r1 =>
              match pyUpdateTextAt diffs (i + 1)
                  (fun t => t.drop (firstSylOf right_diff_text).length) with
              | none => none
              | some d1 => some (r1 ++ [⟨1, rm_noise diff.text, marker_type⟩], d1)
          else if isvowel rc then
            match pyUpdateLastText result (fun t => t ++ firstSylOf right_diff_text) with
            | none => none
            | some r1 =>
              match pyUpdateTextAt diffs (i + 1)
                  (fun t => t.drop (firstSylOf right_diff_text).length) with
              | none => none
              | some d1 => some (r1 ++ [⟨1, rm_noise diff.text, marker_type⟩], d1)
          else if left_diff.typ ≠ 1 then
            match pyUpdateLastText result
                (fun t => pySliceNeg t (lastSylOf left_diff.text).length) with
            | none => none
            | some r1 =>
              match pyUpdateTextAt diffs (i + 1)
                  (fun t => lastSylOf left_diff.text ++ t) with
              | none => none
              | some d1 => some (r1 ++ [⟨1, rm_noise diff.text, marker_type⟩], d1)
          else some (result, diffs)

/-- `tseg_shifter`: if the right neighbour starts with a tseg and the left
neighbour's text is not punctuation, move that one tseg onto the end of the
last emitted entry. -/
def tseg_shifter (result : List Entry) (diffs : List DiffE)
    (left_diff_text : List Char) (i : Nat) (right_diff_text : List Char) :
    Option (List Entry × List DiffE) :=
  match right_diff_text.head? with
  | none => none
  | some rc =>
    if rc = '་' && !is_punct left_diff_text then
      match pyUpdateLastText result (fun t => t ++ ['་']) with
      | none => none
      | some r1 =>
        match pyUpdateTextAt diffs (i + 1) (fun t => t.drop 1) with
        | none => none
        | some d1 => some (r1, d1)
    else some (result, diffs)

/-- The character multiset of a filtered-diff list. -/
def charsE (l : List Entry) : Multiset Char :=
  (l.map (fun e => (e.text : Multiset Char))).sum

/-- The character multiset of an unfiltered-diff list. -/
def charsD (l : List DiffE) : Multiset Char :=
  (l.map (fun d => (d.text : Multiset Char))).sum

theorem charsE_nil : charsE [] = 0 := rfl

theorem charsE_cons (e : Entry) (l : List Entry) :
    charsE (e :: l) = (e.text : Multiset Char) + charsE l := by
  simp [charsE]

theorem charsE_append (a b : List Entry) :
    charsE (a ++ b) = charsE a + charsE b := by
  simp [charsE]

theorem charsD_cons (d : DiffE) (l : List DiffE) :
    charsD (d :: l) = (d.text : Multiset Char) + charsD l := by
  simp [charsD]

theorem coe_split_add {a b c : List Char} (h : a ++ b = c) :
    (a : Multiset Char) + (b : Multiset Char) = (c : Multiset Char) := by
  rw [← h]
  exact Multiset.coe_add a b

theorem drop_cons_of_getElem {α : Type} :
    ∀ (l : List α) (i : Nat) (x : α), l[i]? = some x →
      l.drop i = x :: l.drop (i + 1) := by
  intro l
  induction l with
  | nil => intro i x h; simp at h
  | cons a t ih =>
    intro i x h
    cases i with
    | zero =>
      simp only [List.getElem?_cons_zero, Option.some.injEq] at h
      subst h
      simp
    | succ j =>
      simp only [List.getElem?_cons_succ] at h
      rw [List.drop_succ_cons, ih j x h, List.drop_succ_cons]

theorem set_drop_cons {α : Type} :
    ∀ (l : List α) (i : Nat) (x y : α), l[i]? = some x →
      (l.set i y).drop i = y :: l.drop (i + 1) := by
  intro l
  induction l with
  | nil => intro i x y h; simp at h
  | cons a t ih =>
    intro i x y h
    cases i with
    | zero => simp
    | succ j =>
      simp only [List.getElem?_cons_succ] at h
      rw [List.set_cons_succ, List.drop_succ_cons, List.drop_succ_cons, ih j x y h]

/-- The suffix after the last tseg is a suffix of the original string. -/
theorem lastSylOf_suffix (s : List Char) : lastSylOf s <:+ s := by
  rw [lastSylOf]
  have h : s.reverse.takeWhile (fun c => !(c == '་')) <+: s.reverse :=
    List.takeWhile_prefix _
  have h3 := List.reverse_suffix.2 h
  simpa using h3

/-- Under the mid-syllable guard the left neighbour does not end in a tseg,
so its last syllable (the suffix after the last tseg) is non-empty. -/
theorem midsyl_lastSyl_ne_nil {left rtext : List Char}
    (h : is_midsyl left rtext = true) : lastSylOf left ≠ [] := by
  intro hnil
  have htw : left.reverse.takeWhile (fun c => !(c == '་')) = [] := by
    have h2 : (left.reverse.takeWhile (fun c => !(c == '་'))).reverse = [] := by
      simpa [lastSylOf] using hnil
    exact List.reverse_eq_nil_iff.1 h2
  cases hrev : left.reverse with
  | nil =>
    have hleft : left = [] := List.reverse_eq_nil_iff.1 hrev
    rw [is_midsyl, hleft] at h
    simp at h
  | cons lrh lrt =>
    rw [hrev] at htw
    have hlrh : lrh = '་' := by
      by_cases hc : lrh = '་'
      · exact hc
      · rw [List.takeWhile_cons_of_pos (by simp [hc])] at htw
        simp at htw
    subst hlrh
    have hleft : left = lrt.reverse ++ ['་'] := by
      have h2 := congrArg List.reverse hrev
      simpa using h2
    rw [is_midsyl, hleft] at h
    simp [is_punct, List.filter_append, List.getLastD_eq_getLast?,
      List.getLast?_concat] at h

/-- Common conservation argument for the repair branches that rewrite the
last emitted entry with `g`, rewrite the right neighbour with `hf`, and
append a fresh marker entry `e`: when the rewrites jointly conserve the two
affected texts, the whole step conserves the result-plus-remaining multiset
up to the appended entry. -/
theorem append_branch_conserve
    {result r1 : List Entry} {el : Entry} {diffs d1 : List DiffE} {rd : DiffE}
    {i : Nat} (e : Entry) {g hf : List Char → List Char}
    (hgetl : result.getLast? = some el)
    (hrdsome : diffs[i + 1]? = some rd)
    (hup : pyUpdateLastText result g = some r1)
    (hud : pyUpdateTextAt diffs (i + 1) hf = some d1)
    (hmul : (g el.text : Multiset Char) + (hf rd.text : Multiset Char) =
      (el.text : Multiset Char) + (rd.text : Multiset Char)) :
    charsE (r1 ++ [e]) + charsD (d1.drop (i + 1)) =
      charsE result + charsD (diffs.drop (i + 1)) +
        charsE ((r1 ++ [e]).drop result.length) := by
  rw [pyUpdateLastText, hgetl, Option.some.injEq] at hup
  rw [pyUpdateTextAt, hrdsome, Option.some.injEq] at hud
  subst hup
  subst hud
  obtain ⟨R, hR⟩ := List.getLast?_eq_some_iff.1 hgetl
  subst hR
  rw [List.dropLast_concat]
  have hdropr :
      ((R ++ [(⟨el.typ, g el.text, el.tag⟩ : Entry)]) ++ [e]).drop
        (R ++ [el]).length = [e] := by
    apply List.drop_left'
    simp
  rw [hdropr]
  have hC : charsD ((diffs.set (i + 1) (⟨rd.typ, hf rd.text⟩ : DiffE)).drop (i + 1)) =
      (hf rd.text : Multiset Char) + charsD (diffs.drop (i + 2)) := by
    rw [set_drop_cons diffs (i + 1) rd _ hrdsome, charsD_cons]
  have hD : charsD (diffs.drop (i + 1)) =
      (rd.text : Multiset Char) + charsD (diffs.drop (i + 2)) := by
    rw [drop_cons_of_getElem diffs (i + 1) rd hrdsome, charsD_cons]
  rw [hC, hD]
  have hA : charsE ((R ++ [(⟨el.typ, g el.text, el.tag⟩ : Entry)]) ++ [e]) =
      charsE R + (g el.text : Multiset Char) + (e.text : Multiset Char) := by
    rw [charsE_append, charsE_append, charsE_cons, charsE_cons, charsE_nil]
    abel
  have hB : charsE (R ++ [el]) = charsE R + (el.text : Multiset Char) := by
    rw [charsE_append, charsE_cons, charsE_nil]
    abel
  have hE : charsE [e] = (e.text : Multiset Char) := by
    rw [charsE_cons, charsE_nil]
    abel
  rw [hA, hB, hE]
  calc charsE R + (g el.text : Multiset Char) + (e.text : Multiset Char) +
        ((hf rd.text : Multiset Char) + charsD (diffs.drop (i + 2)))
      = charsE R + (e.text : Multiset Char) + charsD (diffs.drop (i + 2)) +
          ((g el.text : Multiset Char) + (hf rd.text : Multiset Char)) := by abel
    _ = charsE R + (e.text : Multiset Char) + charsD (diffs.drop (i + 2)) +
          ((el.text : Multiset Char) + (rd.text : Multiset Char)) := by rw [hmul]
    _ = charsE R + (el.text : Multiset Char) +
          ((rd.text : Multiset Char) + charsD (diffs.drop (i + 2))) +
          (e.text : Multiset Char) := by abel

/-- Claim C1: the mid-syllable and tseg-shift repairs conserve characters.
`tseg_shifter` leaves the combined multiset of the result entries and the
still-unprocessed diffs exactly unchanged; `handle_mid_syl` changes it only
by emitting the (noise-stripped) current diff as a new marker entry — the
`charsE (r'.drop result.length)` term, the characters of the entries the
call appended — while every relocation between the last emitted entry and
the right neighbour moves characters without creating or destroying any.
The hypotheses are the call-site context of `filter_diffs`: the last
emitted entry carries the left neighbour's text, `right_diff_text` is the
text of `diffs[i+1]`, and the mid-syllable guard holds. -/
theorem repair_conserves_characters :
    (∀ (result : List Entry) (diffs : List DiffE) (ltext rtext : List Char)
        (i : Nat) (r' : List Entry) (d' : List DiffE),
      (diffs[i + 1]?).map DiffE.text = some rtext →
      tseg_shifter result diffs ltext i rtext = some (r', d') →
      charsE r' + charsD (d'.drop (i + 1)) =
        charsE result + charsD (diffs.drop (i + 1))) ∧
    (∀ (result : List Entry) (diffs : List DiffE) (left_diff : DiffE)
        (i : Nat) (diff : DiffE) (rtext : List Char) (mt : String)
        (r' : List Entry) (d' : List DiffE),
      (result.getLast?).map Entry.text = some left_diff.text →
      (diffs[i + 1]?).map DiffE.text = some rtext →
      is_midsyl left_diff.text rtext = true →
      handle_mid_syl result diffs left_diff i diff rtext mt = some (r', d') →
      charsE r' + charsD (d'.drop (i + 1)) =
        charsE result + charsD (diffs.drop (i + 1)) +
          charsE (r'.drop result.length)) := by
  constructor
  · intro result diffs ltext rtext i r' d' hrd hcall
    obtain ⟨rd, hrdsome, hrdtext⟩ :
        ∃ rd, diffs[i + 1]? = some rd ∧ rd.text = rtext := by
      cases hg : diffs[i + 1]? with
      | none => rw [hg] at hrd; simp at hrd
      | some x =>
        rw [hg] at hrd
        simp only [Option.map_some', Option.some.injEq] at hrd
        exact ⟨x, rfl, hrd⟩
    rw [tseg_shifter] at hcall
    cases hh : rtext.head? with
    | none => rw [hh] at hcall; simp at hcall
    | some rc =>
      rw [hh] at hcall
      try dsimp only at hcall
      by_cases hcond : (rc = '་' && !is_punct ltext) = true
      · rw [if_pos hcond] at hcall
        cases hup : pyUpdateLastText result (fun t => t ++ ['་']) with
        | none => rw [hup] at hcall; simp at hcall
        | some r1 =>
          rw [hup] at hcall
          try dsimp only at hcall
          cases hud : pyUpdateTextAt diffs (i + 1) (fun t => t.drop 1) with
          | none => rw [hud] at hcall; simp at hcall
          | some d1 =>
            rw [hud] at hcall
            try dsimp only at hcall
            rw [Option.some.injEq, Prod.mk.injEq] at hcall
            obtain ⟨hr', hd'⟩ := hcall
            subst hr'
            subst hd'
            rw [pyUpdateLastText] at hup
            cases hgl : result.getLast? with
            | none => rw [hgl] at hup; simp at hup
            | some el =>
              rw [hgl, Option.some.injEq] at hup
              subst hup
              rw [pyUpdateTextAt, hrdsome, Option.some.injEq] at hud
              subst hud
              obtain ⟨R, hR⟩ := List.getLast?_eq_some_iff.1 hgl
              subst hR
              rw [List.dropLast_concat]
              have hrc : rc = '་' := by
                rcases Bool.and_eq_true .. ▸ hcond with ⟨h1, _⟩
                simpa using h1
              subst hrc
              have hrdhead : ∃ tl, rd.text = '་' :: tl := by
                cases hrt : rd.text with
                | nil =>
                  rw [hrdtext] at hrt
                  rw [hrt] at hh
                  simp at hh
                | cons a tl =>
                  refine ⟨tl, ?_⟩
                  have h2 : rtext = a :: tl := by rw [← hrdtext]; exact hrt
                  rw [h2] at hh
                  simp only [List.head?_cons, Option.some.injEq] at hh
                  rw [hh]
              obtain ⟨tl, htl⟩ := hrdhead
              have hC : charsD ((diffs.set (i + 1)
                    (⟨rd.typ, rd.text.drop 1⟩ : DiffE)).drop (i + 1)) =
                  (rd.text.drop 1 : Multiset Char) + charsD (diffs.drop (i + 2)) := by
                rw [set_drop_cons diffs (i + 1) rd _ hrdsome, charsD_cons]
              have hD : charsD (diffs.drop (i + 1)) =
                  (rd.text : Multiset Char) + charsD (diffs.drop (i + 2)) := by
                rw [drop_cons_of_getElem diffs (i + 1) rd hrdsome, charsD_cons]
              rw [hC, hD, charsE_append, charsE_append, charsE_cons, charsE_cons,
                charsE_nil, htl]
              have hsplit1 : (el.text : Multiset Char) + (['་'] : List Char) =
                  ((el.text ++ ['་'] : List Char) : Multiset Char) :=
                coe_split_add rfl
              have hsplit2 : ((['་'] : List Char) : Multiset Char) + (tl : List Char) =
                  (('་' :: tl : List Char) : Multiset Char) :=
                coe_split_add rfl
              rw [← hsplit1, ← hsplit2]
              simp only [List.drop_succ_cons, List.drop_nil, List.drop_zero]
              abel
      · rw [if_neg hcond] at hcall
        rw [Option.some.injEq, Prod.mk.injEq] at hcall
        obtain ⟨hr', hd'⟩ := hcall
        subst hr'
        subst hd'
        rfl
  · intro result diffs left_diff i diff rtext mt r' d' hlast hrd hmid hcall
    obtain ⟨el, hgetl, heltext⟩ :
        ∃ el, result.getLast? = some el ∧ el.text = left_diff.text := by
      cases hg : result.getLast? with
      | none => rw [hg] at hlast; simp at hlast
      | some e =>
        rw [hg] at hlast
        simp only [Option.map_some', Option.some.injEq] at hlast
        exact ⟨e, rfl, hlast⟩
    obtain ⟨rd, hrdsome, hrdtext⟩ :
        ∃ rd, diffs[i + 1]? = some rd ∧ rd.text = rtext := by
      cases hg : diffs[i + 1]? with
      | none => rw [hg] at hrd; simp at hrd
      | some x =>
        rw [hg] at hrd
        simp only [Option.map_some', Option.some.injEq] at hrd
        exact ⟨x, rfl, hrd⟩
    rw [handle_mid_syl] at hcall
    rw [← heltext, ← hrdtext] at hcall
    cases hdm : double_mid_syl_marker result with
    | none => rw [hdm] at hcall; simp at hcall
    | some b =>
      rw [hdm] at hcall
      cases b with
      | false =>
        try dsimp only at hcall
        rw [Option.some.injEq, Prod.mk.injEq] at hcall
        obtain ⟨hr', hd'⟩ := hcall
        subst hr'
        subst hd'
        rw [List.drop_length, charsE_nil, add_zero]
      | true =>
        try dsimp only at hcall
        cases hlc : el.text.getLast? with
        | none => rw [hlc] at hcall; simp at hcall
        | some lc =>
          rw [hlc] at hcall
          try dsimp only at hcall
          by_cases hsp : lc = ' '
          · rw [if_pos hsp] at hcall
            cases hup : pyUpdateLastText result (fun t => t.take (t.length - 2)) with
            | none => rw [hup] at hcall; simp at hcall
            | some r1 =>
              rw [hup] at hcall
              try dsimp only at hcall
              cases hud : pyUpdateTextAt diffs (i + 1)
                  (fun t => el.text.drop (el.text.length - 2) ++ t) with
              | none => rw [hud] at hcall; simp at hcall
              | some d1 =>
                rw [hud] at hcall
                try dsimp only at hcall
                rw [Option.some.injEq, Prod.mk.injEq] at hcall
                obtain ⟨hr', hd'⟩ := hcall
                subst hr'
                subst hd'
                refine append_branch_conserve _ hgetl hrdsome hup hud ?_
                have hsplit : el.text.take (el.text.length - 2) ++
                    el.text.drop (el.text.length - 2) = el.text :=
                  List.take_append_drop _ _
                rw [← coe_split_add
                  (rfl : el.text.drop (el.text.length - 2) ++ rd.text = _)]
                rw [← add_assoc, coe_split_add hsplit]
          · rw [if_neg hsp] at hcall
            cases hhd : rd.text.head? with
            | none => rw [hhd] at hcall; simp at hcall
            | some rc =>
              rw [hhd] at hcall
              try dsimp only at hcall
              by_cases hrcsp : rc = ' '
              · rw [if_pos hrcsp] at hcall
                rw [Option.some.injEq, Prod.mk.injEq] at hcall
                obtain ⟨hr', hd'⟩ := hcall
                subst hr'
                subst hd'
                rw [charsE_append]
                have hdropr : ((result ++ [(⟨1, rm_noise diff.text, mt⟩ : Entry)]).drop
                    result.length) = [(⟨1, rm_noise diff.text, mt⟩ : Entry)] :=
                  List.drop_left _ _
                rw [hdropr]
                abel
              · rw [if_neg hrcsp] at hcall
                by_cases hvl : isvowel lc = true
                · rw [if_pos hvl] at hcall
                  cases hup : pyUpdateLastText result
                      (fun t => t ++ firstSylOf rd.text) with
                  | none => rw [hup] at hcall; simp at hcall
                  | some r1 =>
                    rw [hup] at hcall
                    try dsimp only at hcall
                    cases hud : pyUpdateTextAt diffs (i + 1)
                        (fun t => t.drop (firstSylOf rd.text).length) with
                    | none => rw [hud] at hcall; simp at hcall
                    | some d1 =>
                      rw [hud] at hcall
                      try dsimp only at hcall
                      rw [Option.some.injEq, Prod.mk.injEq] at hcall
                      obtain ⟨hr', hd'⟩ := hcall
                      subst hr'
                      subst hd'
                      refine append_branch_conserve _ hgetl hrdsome hup hud ?_
                      have hsplit : firstSylOf rd.text ++
                          rd.text.drop (firstSylOf rd.text).length = rd.text := by
                        rw [firstSylOf]
                        exact (append_drop_restore (List.takeWhile_prefix _)).symm
                      rw [← coe_split_add (rfl : el.text ++ firstSylOf rd.text = _)]
                      rw [add_assoc, coe_split_add hsplit]
                · rw [if_neg hvl] at hcall
                  by_cases hvr : isvowel rc = true
                  · rw [if_pos hvr] at hcall
                    cases hup : pyUpdateLastText result
                        (fun t => t ++ firstSylOf rd.text) with
                    | none => rw [hup] at hcall; simp at hcall
                    | some r1 =>
                      rw [hup] at hcall
                      try dsimp only at hcall
                      cases hud : pyUpdateTextAt diffs (i + 1)
                          (fun t => t.drop (firstSylOf rd.text).length) with
                      | none => rw [hud] at hcall; simp at hcall
                      | some d1 =>
                        rw [hud] at hcall
                        try dsimp only at hcall
                        rw [Option.some.injEq, Prod.mk.injEq] at hcall
                        obtain ⟨hr', hd'⟩ := hcall
                        subst hr'
                        subst hd'
                        refine append_branch_conserve _ hgetl hrdsome hup hud ?_
                        have hsplit : firstSylOf rd.text ++
                            rd.text.drop (firstSylOf rd.text).length = rd.text := by
                          rw [firstSylOf]
                          exact (append_drop_restore (List.takeWhile_prefix _)).symm
                        rw [← coe_split_add (rfl : el.text ++ firstSylOf rd.text = _)]
                        rw [add_assoc, coe_split_add hsplit]
                  · rw [if_neg hvr] at hcall
                    by_cases htyp : left_diff.typ ≠ 1
                    · rw [if_pos htyp] at hcall
                      cases hup : pyUpdateLastText result
                          (fun t => pySliceNeg t (lastSylOf el.text).length) with
                      | none => rw [hup] at hcall; simp at hcall
                      | some r1 =>
                        rw [hup] at hcall
                        try dsimp only at hcall
                        cases hud : pyUpdateTextAt diffs (i + 1)
                            (fun t => lastSylOf el.text ++ t) with
                        | none => rw [hud] at hcall; simp at hcall
                        | some d1 =>
                          rw [hud] at hcall
                          try dsimp only at hcall
                          rw [Option.some.injEq, Prod.mk.injEq] at hcall
                          obtain ⟨hr', hd'⟩ := hcall
                          subst hr'
                          subst hd'
                          refine append_branch_conserve _ hgetl hrdsome hup hud ?_
                          have hn : lastSylOf el.text ≠ [] := by
                            rw [heltext]
                            exact midsyl_lastSyl_ne_nil hmid
                          obtain ⟨pre, hpre⟩ := lastSylOf_suffix el.text
                          generalize hL : lastSylOf el.text = L at hpre hn ⊢
                          rw [← hpre, pySliceNeg]
                          rw [if_neg (fun h0 => hn (List.length_eq_zero.1 h0))]
                          rw [show (pre ++ L).length - L.length = pre.length from by
                            simp only [List.length_append]
                            omega]
                          rw [List.take_left]
                          rw [← coe_split_add (rfl : L ++ rd.text = _)]
                          rw [← coe_split_add (rfl : pre ++ L = _)]
                          abel
                    · rw [if_neg htyp] at hcall
                      rw [Option.some.injEq, Prod.mk.injEq] at hcall
                      obtain ⟨hr', hd'⟩ := hcall
                      subst hr'
                      subst hd'
                      rw [List.drop_length, charsE_nil, add_zero]

/-- Witness for C1: the two conservation conjuncts instantiated on concrete
repairs — a tseg shift that moves `་` from `diffs[1]` onto the last result
entry, and a `handle_mid_syl` call (space-headed right neighbour) that
appends the marker entry `⟨1, "①", "marker"⟩` while leaving both
neighbours alone. -/
theorem repair_conserves_characters_witness :
    (charsE [(⟨0, ['ཀ', '་'], ""⟩ : Entry)] +
        charsD (([⟨-1, ['①']⟩, ⟨0, ['ག']⟩] : List DiffE).drop 1) =
      charsE [(⟨0, ['ཀ'], ""⟩ : Entry)] +
        charsD (([⟨-1, ['①']⟩, ⟨0, ['་', 'ག']⟩] : List DiffE).drop 1)) ∧
    (charsE [(⟨0, ['།'], ""⟩ : Entry), ⟨0, ['ཀ'], ""⟩, ⟨1, ['①'], "marker"⟩] +
        charsD (([⟨1, ['①']⟩, ⟨0, [' ', 'ག']⟩] : List DiffE).drop 1) =
      charsE [(⟨0, ['།'], ""⟩ : Entry), ⟨0, ['ཀ'], ""⟩] +
        charsD (([⟨1, ['①']⟩, ⟨0, [' ', 'ག']⟩] : List DiffE).drop 1) +
        charsE (([(⟨0, ['།'], ""⟩ : Entry), ⟨0, ['ཀ'], ""⟩,
          ⟨1, ['①'], "marker"⟩]).drop 2)) :=
  ⟨repair_conserves_characters.1 [⟨0, ['ཀ'], ""⟩]
      [⟨-1, ['①']⟩, ⟨0, ['་', 'ག']⟩] ['ཀ'] ['་', 'ག'] 0
      [⟨0, ['ཀ', '་'], ""⟩] [⟨-1, ['①']⟩, ⟨0, ['ག']⟩] (by decide) rfl,
   repair_conserves_characters.2 [⟨0, ['།'], ""⟩, ⟨0, ['ཀ'], ""⟩]
      [⟨1, ['①']⟩, ⟨0, [' ', 'ག']⟩] ⟨0, ['ཀ']⟩ 0 ⟨1, ['①']⟩ [' ', 'ག'] "marker"
      [⟨0, ['།'], ""⟩, ⟨0, ['ཀ'], ""⟩, ⟨1, ['①'], "marker"⟩]
      [⟨1, ['①']⟩, ⟨0, [' ', 'ག']⟩] (by decide) (by decide) (by decide) rfl⟩

/-- Claim C1, counterexample: a genuine mid-syllable repair (the guard
`is_midsyl` holds) on which `handle_mid_syl` does change the total character
multiset of result entries plus remaining unprocessed diffs — the marker
entry it appends brings in the `①` that was not in the tally before. -/
theorem handle_mid_syl_changes_multiset :
    is_midsyl ['ཀ'] [' ', 'ག'] = true ∧
    handle_mid_syl [⟨0, ['།'], ""⟩, ⟨0, ['ཀ'], ""⟩]
        [⟨1, ['①']⟩, ⟨0, [' ', 'ག']⟩] ⟨0, ['ཀ']⟩ 0 ⟨1, ['①']⟩ [' ', 'ག']
        "marker" =
      some ([⟨0, ['།'], ""⟩, ⟨0, ['ཀ'], ""⟩, ⟨1, ['①'], "marker"⟩],
        [⟨1, ['①']⟩, ⟨0, [' ', 'ག']⟩]) ∧
    charsE [(⟨0, ['།'], ""⟩ : Entry), ⟨0, ['ཀ'], ""⟩, ⟨1, ['①'], "marker"⟩] +
        charsD (([⟨1, ['①']⟩, ⟨0, [' ', 'ག']⟩] : List DiffE).drop 1) ≠
      charsE [(⟨0, ['།'], ""⟩ : Entry), ⟨0, ['ཀ'], ""⟩] +
        charsD (([⟨1, ['①']⟩, ⟨0, [' ', 'ག']⟩] : List DiffE).drop 1) :=
  ⟨by decide, rfl, by decide⟩

end Pedurma
